import Mathlib

/-!
# Verification of the Reversi rule engine and AI strategies

This development embeds the game-rule engine and AI decision subsystem of
`src/reversi.js` (an 8x8 Reversi/Othello implementation) into Lean 4 and
proves the specified properties about it.

Modelling conventions:
* JS cell constants `EMPTY = 0`, `BLACK = 1`, `WHITE = 2` become the inductive
  type `Cell`.
* A board is a total function `Int → Int → Cell`; every read in the source is
  guarded by `isInBounds`, so values outside `[0,8) × [0,8)` are never
  consulted.  Coordinates are `Int` because the direction scans of the source
  step coordinates below `0` and above `7` before the bounds check stops them.
* The `while` loops that walk a direction ray are modelled by the fueled
  functions `runAux` (the cells visited, i.e. the collected run) and `runStop`
  (the coordinate at which the loop stopped).  Fuel `8` is exact: each of the
  eight direction vectors moves at least one coordinate by `±1` per step and
  the in-bounds check confines that coordinate to the 8 values `0..7`, so the
  source loop iterates at most 8 times.
* JS numbers appearing in the AI search are modelled as `JSNum` (a rational
  together with the two infinities used as alpha/beta sentinels); the decimal
  weight literals of the evaluator are modelled as the exact rationals they
  denote.
-/

set_option maxRecDepth 8000

namespace Reversi

/-- Cell states: `EMPTY = 0`, `BLACK = 1`, `WHITE = 2` in the source. -/
inductive Cell where
  | empty
  | black
  | white
deriving DecidableEq, Repr

/-- A board: row-major 8x8 matrix of cells, addressed as `board x y`. -/
abbrev Board := Int → Int → Cell

/-- A position `(row, col)` on (or off) the board. -/
abbrev Pos := Int × Int

/-- `isInBounds(x, y)` from the source: both coordinates in `[0, 8)`. -/
def isInBounds (x y : Int) : Bool :=
  decide (0 ≤ x) && decide (x < 8) && decide (0 ≤ y) && decide (y < 8)

/-- The eight direction unit vectors `DIRECTIONS` of the source. -/
def DIRECTIONS : List Pos :=
  [(-1, -1), (-1, 0), (-1, 1),
   (0, -1),           (0, 1),
   (1, -1),  (1, 0),  (1, 1)]

/-- Writing one cell of a board (`board[r][c] = v`). -/
def setCell (b : Board) (r c : Int) (v : Cell) : Board :=
  fun x y => if x = r ∧ y = c then v else b x y

/-- Condition of the direction-scan `while` loops of `countFlips` and
`makeMove`: in bounds, occupied, and not the mover's own color. -/
def scanCond (b : Board) (player : Cell) (x y : Int) : Bool :=
  isInBounds x y && decide (b x y ≠ Cell.empty) && decide (b x y ≠ player)

/-- The run of cells visited by the direction-scan loop started at `(x, y)`
with step `(dx, dy)`: the contiguous opponent discs collected into
`discsToFlip` by `makeMove` (and counted by `tempFlips` in `countFlips`). -/
def runAux (b : Board) (player : Cell) (dx dy : Int) : Nat → Int → Int → List Pos
  | 0, _, _ => []
  | n + 1, x, y =>
    if scanCond b player x y then (x, y) :: runAux b player dx dy n (x + dx) (y + dy)
    else []

/-- The coordinate at which the direction-scan loop stops. -/
def runStop (b : Board) (player : Cell) (dx dy : Int) : Nat → Int → Int → Pos
  | 0, x, y => (x, y)
  | n + 1, x, y =>
    if scanCond b player x y then runStop b player dx dy n (x + dx) (y + dy)
    else (x, y)

/-- `countFlips(board, row, col, player)`: 0 on an occupied cell, else the sum
over the eight directions of the run length whenever the run stops on one of
the mover's own discs with at least one opponent disc collected. -/
def countFlips (b : Board) (row col : Int) (player : Cell) : Nat :=
  if b row col ≠ Cell.empty then 0
  else
    DIRECTIONS.foldl (fun totalFlips d =>
      if isInBounds (runStop b player d.1 d.2 8 (row + d.1) (col + d.2)).1
            (runStop b player d.1 d.2 8 (row + d.1) (col + d.2)).2
          && decide (b (runStop b player d.1 d.2 8 (row + d.1) (col + d.2)).1
            (runStop b player d.1 d.2 8 (row + d.1) (col + d.2)).2 = player)
          && decide (0 < (runAux b player d.1 d.2 8 (row + d.1) (col + d.2)).length)
      then totalFlips + (runAux b player d.1 d.2 8 (row + d.1) (col + d.2)).length
      else totalFlips) 0

/-- `isValidMove(board, row, col, player)`: empty target and at least one
flip. -/
def isValidMove (b : Board) (row col : Int) (player : Cell) : Bool :=
  if b row col ≠ Cell.empty then false
  else decide (0 < countFlips b row col player)

/-- `getValidMoves(board, player)`: all 64 cells scanned row-major,
collecting the ones that pass `isValidMove`. -/
def getValidMoves (b : Board) (player : Cell) : List Pos :=
  (List.range 8).flatMap (fun row =>
    (List.range 8).filterMap (fun col =>
      if isValidMove b (row : Int) (col : Int) player
      then some ((row : Int), (col : Int)) else none))

/-- The 64 board cells in row-major order. -/
def cellsList : List Pos :=
  (List.range 8).flatMap (fun (row : Nat) =>
    (List.range 8).map (fun (col : Nat) => ((row : Int), (col : Int))))

/-- One direction of the flipping pass of `makeMove(board, row, col, player)`:
collect the run on the current board, then flip it if the scan stopped
in-bounds on one of the mover's own discs and the run is nonempty. -/
def flipDir (player : Cell) (row col : Int) (d : Pos) (b : Board) : Board :=
  if isInBounds (runStop b player d.1 d.2 8 (row + d.1) (col + d.2)).1
        (runStop b player d.1 d.2 8 (row + d.1) (col + d.2)).2
      && decide (b (runStop b player d.1 d.2 8 (row + d.1) (col + d.2)).1
        (runStop b player d.1 d.2 8 (row + d.1) (col + d.2)).2 = player)
      && decide (0 < (runAux b player d.1 d.2 8 (row + d.1) (col + d.2)).length)
  then (runAux b player d.1 d.2 8 (row + d.1) (col + d.2)).foldl
    (fun bb q => setCell bb q.1 q.2 player) b
  else b

/-- `makeMove(board, row, col, player)`: place the disc, then process the
eight directions in order, each scanning the board as mutated so far. -/
def makeMove (b : Board) (row col : Int) (player : Cell) : Board :=
  DIRECTIONS.foldl (fun bb d => flipDir player row col d bb)
    (setCell b row col player)

/-- `countDiscs(board)`: `(black, white)` tallies over the 64 cells (`total`
of the source record is the sum of the two). -/
def countDiscs (b : Board) : Nat × Nat :=
  cellsList.foldl (fun acc q =>
    if b q.1 q.2 = Cell.black then (acc.1 + 1, acc.2)
    else if b q.1 q.2 = Cell.white then (acc.1, acc.2 + 1)
    else acc) (0, 0)

/-- The board set up by `initializeBoard`: the four canonical center discs. -/
def startBoard : Board := fun x y =>
  if x = 3 ∧ y = 3 then Cell.white
  else if x = 3 ∧ y = 4 then Cell.black
  else if x = 4 ∧ y = 3 then Cell.black
  else if x = 4 ∧ y = 4 then Cell.white
  else Cell.empty

/-- The cells that the legality test of `countFlips` counts as flippable in
one direction: the collected run when the scan stops in-bounds on one of the
mover's own discs with a nonempty run, nothing otherwise. -/
def flippedDir (b : Board) (row col : Int) (player : Cell) (d : Pos) : List Pos :=
  if isInBounds (runStop b player d.1 d.2 8 (row + d.1) (col + d.2)).1
        (runStop b player d.1 d.2 8 (row + d.1) (col + d.2)).2
      && decide (b (runStop b player d.1 d.2 8 (row + d.1) (col + d.2)).1
        (runStop b player d.1 d.2 8 (row + d.1) (col + d.2)).2 = player)
      && decide (0 < (runAux b player d.1 d.2 8 (row + d.1) (col + d.2)).length)
  then runAux b player d.1 d.2 8 (row + d.1) (col + d.2) else []

/-- All cells counted as flippable by `countFlips`, across the eight
directions. -/
def flippedCells (b : Board) (row col : Int) (player : Cell) : List Pos :=
  DIRECTIONS.flatMap (flippedDir b row col player)

/-! ## Ray lemmas: the direction-scan loop walks an arithmetic ray -/

/-- The `i`-th cell collected by the scan started at `(x, y)` is
`(x + i·dx, y + i·dy)` and satisfies the scan condition. -/
theorem runAux_getElem (b : Board) (p : Cell) (dx dy : Int) :
    ∀ (n : Nat) (x y : Int) (i : Nat),
      i < (runAux b p dx dy n x y).length →
      (runAux b p dx dy n x y)[i]? = some (x + i * dx, y + i * dy) ∧
        scanCond b p (x + i * dx) (y + i * dy) = true := by
  intro n
  induction n with
  | zero => intro x y i hi; simp [runAux] at hi
  | succ n ih =>
    intro x y i hi
    by_cases h : scanCond b p x y = true
    · have hrw : runAux b p dx dy (n + 1) x y
          = (x, y) :: runAux b p dx dy n (x + dx) (y + dy) := by
        rw [runAux, if_pos h]
      rw [hrw] at hi ⊢
      match i with
      | 0 => exact ⟨by simp, by simpa using h⟩
      | Nat.succ j =>
        have hj : j < (runAux b p dx dy n (x + dx) (y + dy)).length :=
          Nat.lt_of_succ_lt_succ (by simpa using hi)
        obtain ⟨h1, h2⟩ := ih (x + dx) (y + dy) j hj
        have e1 : x + dx + (j : Int) * dx = x + ((j + 1 : Nat) : Int) * dx := by
          push_cast; ring
        have e2 : y + dy + (j : Int) * dy = y + ((j + 1 : Nat) : Int) * dy := by
          push_cast; ring
        rw [e1, e2] at h1 h2
        exact ⟨by simpa using h1, h2⟩
    · rw [runAux, if_neg h] at hi; simp at hi

/-- Every collected cell lies on the scan ray and satisfies the scan
condition. -/
theorem runAux_mem {b : Board} {p : Cell} {dx dy : Int} {n : Nat} {x y : Int}
    {q : Pos} (h : q ∈ runAux b p dx dy n x y) :
    ∃ k : Nat, q = (x + k * dx, y + k * dy) ∧ scanCond b p q.1 q.2 = true := by
  obtain ⟨i, hq⟩ := List.mem_iff_getElem?.mp h
  have hi : i < (runAux b p dx dy n x y).length := by
    by_contra hni
    rw [List.getElem?_eq_none (Nat.le_of_not_lt hni)] at hq
    exact Option.noConfusion hq
  obtain ⟨h1, h2⟩ := runAux_getElem b p dx dy n x y i hi
  rw [hq] at h1
  have hqe : q = (x + i * dx, y + i * dy) := by
    injection h1
  exact ⟨i, hqe, by rw [hqe]; exact h2⟩

/-- The scan stops exactly one step past the collected run. -/
theorem runStop_eq (b : Board) (p : Cell) (dx dy : Int) :
    ∀ (n : Nat) (x y : Int),
      runStop b p dx dy n x y =
        (x + (runAux b p dx dy n x y).length * dx,
         y + (runAux b p dx dy n x y).length * dy) := by
  intro n
  induction n with
  | zero => intro x y; simp [runStop, runAux]
  | succ n ih =>
    intro x y
    by_cases h : scanCond b p x y = true
    · rw [runStop, if_pos h, runAux, if_pos h, ih]
      simp only [List.length_cons, Prod.mk.injEq]
      constructor <;> push_cast <;> ring
    · rw [runStop, if_neg h, runAux, if_neg h]
      simp

/-- The scan only reads board cells on its own ray: two boards agreeing on
the ray produce the same run. -/
theorem runAux_congr {b₁ b₂ : Board} {p : Cell} {dx dy : Int} :
    ∀ (n : Nat) (x y : Int),
      (∀ k : Nat, b₁ (x + k * dx) (y + k * dy) = b₂ (x + k * dx) (y + k * dy)) →
      runAux b₁ p dx dy n x y = runAux b₂ p dx dy n x y := by
  intro n
  induction n with
  | zero => intro x y _; simp [runAux]
  | succ n ih =>
    intro x y hagree
    have h0 : b₁ x y = b₂ x y := by simpa using hagree 0
    have hcond : scanCond b₁ p x y = scanCond b₂ p x y := by
      simp [scanCond, h0]
    have hrest : ∀ k : Nat,
        b₁ (x + dx + k * dx) (y + dy + k * dy) = b₂ (x + dx + k * dx) (y + dy + k * dy) := by
      intro k
      have := hagree (k + 1)
      have e1 : x + ((k : Int) + 1) * dx = x + dx + k * dx := by ring
      have e2 : y + ((k : Int) + 1) * dy = y + dy + k * dy := by ring
      rw [show ((k + 1 : Nat) : Int) = (k : Int) + 1 by push_cast; ring, e1, e2] at this
      exact this
    rw [runAux, runAux, hcond]
    by_cases h : scanCond b₂ p x y = true
    · rw [if_pos h, if_pos h, ih (x + dx) (y + dy) hrest]
    · rw [if_neg h, if_neg h]

/-- Companion of `runAux_congr` for the stop coordinate. -/
theorem runStop_congr {b₁ b₂ : Board} {p : Cell} {dx dy : Int} :
    ∀ (n : Nat) (x y : Int),
      (∀ k : Nat, b₁ (x + k * dx) (y + k * dy) = b₂ (x + k * dx) (y + k * dy)) →
      runStop b₁ p dx dy n x y = runStop b₂ p dx dy n x y := by
  intro n x y hagree
  rw [runStop_eq, runStop_eq, runAux_congr n x y hagree]

/-! ## Geometry of the eight direction rays -/

/-- No point of a direction ray (one or more steps out) is the origin. -/
theorem ray_ne_center {d : Pos} (hd : d ∈ DIRECTIONS) (row col : Int) (k : Nat) :
    (row + d.1 + (k : Int) * d.1, col + d.2 + (k : Int) * d.2) ≠ (row, col) := by
  simp only [DIRECTIONS, List.mem_cons, List.not_mem_nil, or_false] at hd
  rcases hd with h | h | h | h | h | h | h | h <;> subst h <;>
    (intro h1; rw [Prod.mk.injEq] at h1; omega)

/-- Rays in two distinct directions from the same origin never meet. -/
theorem ray_disjoint {d d' : Pos} (hd : d ∈ DIRECTIONS) (hd' : d' ∈ DIRECTIONS)
    (hne : d ≠ d') (row col : Int) (k k' : Nat) :
    (row + d.1 + (k : Int) * d.1, col + d.2 + (k : Int) * d.2) ≠
      (row + d'.1 + (k' : Int) * d'.1, col + d'.2 + (k' : Int) * d'.2) := by
  simp only [DIRECTIONS, List.mem_cons, List.not_mem_nil, or_false] at hd hd'
  rcases hd with h | h | h | h | h | h | h | h <;> subst h <;>
    rcases hd' with h | h | h | h | h | h | h | h <;> subst h <;>
      first
        | exact absurd rfl hne
        | (intro h1; rw [Prod.mk.injEq] at h1; omega)

/-- A scan run never revisits a cell (the step vector is nonzero). -/
theorem runAux_nodup {b : Board} {p : Cell} {dx dy : Int}
    (hne : ¬(dx = 0 ∧ dy = 0)) :
    ∀ (n : Nat) (x y : Int), (runAux b p dx dy n x y).Nodup := by
  intro n
  induction n with
  | zero => intro x y; simp [runAux]
  | succ n ih =>
    intro x y
    by_cases h : scanCond b p x y = true
    · rw [runAux, if_pos h]
      refine List.nodup_cons.mpr ⟨?_, ih (x + dx) (y + dy)⟩
      intro hmem
      obtain ⟨k, hk, -⟩ := runAux_mem hmem
      have h1 : x = x + dx + (k : Int) * dx := congrArg Prod.fst hk
      have h2 : y = y + dy + (k : Int) * dy := congrArg Prod.snd hk
      have hdx : ((k : Int) + 1) * dx = 0 := by linarith
      have hdy : ((k : Int) + 1) * dy = 0 := by linarith
      have hk1 : ((k : Int) + 1) ≠ 0 := by positivity
      exact hne ⟨by simpa [hk1] using mul_eq_zero.mp hdx,
        by simpa [hk1] using mul_eq_zero.mp hdy⟩
    · rw [runAux, if_neg h]; simp

/-- Writing a list of cells with `setCell`: a cell gets the written value iff
it is in the list. -/
theorem foldl_setCell (v : Cell) :
    ∀ (l : List Pos) (b : Board) (x y : Int),
      (l.foldl (fun bb q => setCell bb q.1 q.2 v) b) x y =
        if (x, y) ∈ l then v else b x y := by
  intro l
  induction l with
  | nil => intro b x y; simp
  | cons q l ih =>
    intro b x y
    rw [List.foldl_cons, ih]
    by_cases hmem : (x, y) ∈ l
    · rw [if_pos hmem, if_pos (List.mem_cons_of_mem q hmem)]
    · rw [if_neg hmem]
      by_cases hq : (x, y) = q
      · rw [if_pos (by rw [hq]; exact List.mem_cons_self q l)]
        simp [setCell, ← hq, Prod.ext_iff]
      · rw [if_neg (by simp [hq, hmem])]
        have : ¬(x = q.1 ∧ y = q.2) := by
          intro hc
          exact hq (Prod.ext hc.1 hc.2)
        simp [setCell, this]

/-! ## The flipping pass of `makeMove` -/

/-- Invariant of the direction loop of `makeMove`: after processing a prefix
`done` of the direction list, the board holds `player` at the placed cell and
at the cells of the legal runs of the processed directions (computed on the
original board), and is untouched elsewhere.  The sequential mutation is
harmless because each direction scan reads only its own ray, which is
disjoint from the placed cell and from every other direction's ray. -/
theorem flip_fold_inv (b : Board) (row col : Int) (player : Cell) :
    ∀ (rest done : List Pos) (cb : Board),
      DIRECTIONS = done ++ rest →
      (∀ x y, cb x y =
        if (x, y) = (row, col) then player
        else if (x, y) ∈ done.flatMap (flippedDir b row col player) then player
        else b x y) →
      ∀ x y, (rest.foldl (fun bb d => flipDir player row col d bb) cb) x y =
        if (x, y) = (row, col) then player
        else if (x, y) ∈ flippedCells b row col player then player
        else b x y := by
  intro rest
  induction rest with
  | nil =>
    intro done cb hsplit hinv x y
    rw [List.append_nil] at hsplit
    subst hsplit
    rw [List.foldl_nil, hinv x y]
    rfl
  | cons d rest ih =>
    intro done cb hsplit hinv x y
    have hdDir : d ∈ DIRECTIONS := by
      rw [hsplit]; exact List.mem_append_right _ (List.mem_cons_self d rest)
    have hnodup : (done ++ d :: rest).Nodup := by
      rw [← hsplit]; decide
    have hdnotdone : d ∉ done := by
      rcases List.nodup_append.mp hnodup with ⟨-, -, hdisj⟩
      intro hmem
      exact hdisj hmem (List.mem_cons_self d rest)
    have hray : ∀ k : Nat,
        cb (row + d.1 + (k : Int) * d.1) (col + d.2 + (k : Int) * d.2)
          = b (row + d.1 + (k : Int) * d.1) (col + d.2 + (k : Int) * d.2) := by
      intro k
      rw [hinv]
      rw [if_neg (ray_ne_center hdDir row col k)]
      rw [if_neg ?hnm]
      case hnm =>
        intro hmem
        rw [List.mem_flatMap] at hmem
        obtain ⟨d', hd'done, hmem'⟩ := hmem
        have hd'Dir : d' ∈ DIRECTIONS := by
          rw [hsplit]; exact List.mem_append_left _ hd'done
        have hne : d ≠ d' := fun he => hdnotdone (he ▸ hd'done)
        have hrun : (row + d.1 + (k : Int) * d.1, col + d.2 + (k : Int) * d.2)
            ∈ runAux b player d'.1 d'.2 8 (row + d'.1) (col + d'.2) := by
          unfold flippedDir at hmem'
          by_cases hcnd : (isInBounds
                (runStop b player d'.1 d'.2 8 (row + d'.1) (col + d'.2)).1
                (runStop b player d'.1 d'.2 8 (row + d'.1) (col + d'.2)).2
              && decide (b (runStop b player d'.1 d'.2 8 (row + d'.1) (col + d'.2)).1
                (runStop b player d'.1 d'.2 8 (row + d'.1) (col + d'.2)).2 = player)
              && decide (0 < (runAux b player d'.1 d'.2 8
                (row + d'.1) (col + d'.2)).length)) = true
          · rwa [if_pos hcnd] at hmem'
          · rw [if_neg hcnd] at hmem'
            exact absurd hmem' (List.not_mem_nil _)
        obtain ⟨k', hk', -⟩ := runAux_mem hrun
        exact ray_disjoint hdDir hd'Dir hne row col k k' hk'
    have hrunEq : runAux cb player d.1 d.2 8 (row + d.1) (col + d.2)
        = runAux b player d.1 d.2 8 (row + d.1) (col + d.2) :=
      runAux_congr 8 (row + d.1) (col + d.2) hray
    have hstopEq : runStop cb player d.1 d.2 8 (row + d.1) (col + d.2)
        = runStop b player d.1 d.2 8 (row + d.1) (col + d.2) :=
      runStop_congr 8 (row + d.1) (col + d.2) hray
    have hcbstop : cb (runStop b player d.1 d.2 8 (row + d.1) (col + d.2)).1
        (runStop b player d.1 d.2 8 (row + d.1) (col + d.2)).2
        = b (runStop b player d.1 d.2 8 (row + d.1) (col + d.2)).1
          (runStop b player d.1 d.2 8 (row + d.1) (col + d.2)).2 := by
      rw [runStop_eq]
      exact hray _
    have hflip : flipDir player row col d cb
        = if (isInBounds (runStop b player d.1 d.2 8 (row + d.1) (col + d.2)).1
              (runStop b player d.1 d.2 8 (row + d.1) (col + d.2)).2
            && decide (b (runStop b player d.1 d.2 8 (row + d.1) (col + d.2)).1
              (runStop b player d.1 d.2 8 (row + d.1) (col + d.2)).2 = player)
            && decide (0 < (runAux b player d.1 d.2 8
              (row + d.1) (col + d.2)).length)) = true
          then (runAux b player d.1 d.2 8 (row + d.1) (col + d.2)).foldl
            (fun bb q => setCell bb q.1 q.2 player) cb
          else cb := by
      unfold flipDir
      rw [hrunEq, hstopEq, hcbstop]
    have hsplit' : DIRECTIONS = (done ++ [d]) ++ rest := by
      rw [hsplit, List.append_assoc, List.singleton_append]
    have hmemSplit : ∀ q : Pos,
        (q ∈ (done ++ [d]).flatMap (flippedDir b row col player)) ↔
          (q ∈ done.flatMap (flippedDir b row col player) ∨
            q ∈ flippedDir b row col player d) := by
      intro q
      rw [List.flatMap_append, List.mem_append]
      simp [List.flatMap]
    rw [List.foldl_cons, hflip]
    by_cases hc : (isInBounds (runStop b player d.1 d.2 8 (row + d.1) (col + d.2)).1
          (runStop b player d.1 d.2 8 (row + d.1) (col + d.2)).2
        && decide (b (runStop b player d.1 d.2 8 (row + d.1) (col + d.2)).1
          (runStop b player d.1 d.2 8 (row + d.1) (col + d.2)).2 = player)
        && decide (0 < (runAux b player d.1 d.2 8
          (row + d.1) (col + d.2)).length)) = true
    · rw [if_pos hc]
      refine ih (done ++ [d])
        ((runAux b player d.1 d.2 8 (row + d.1) (col + d.2)).foldl
          (fun bb q => setCell bb q.1 q.2 player) cb) hsplit' ?_ x y
      intro x' y'
      rw [foldl_setCell]
      have hfd : flippedDir b row col player d
          = runAux b player d.1 d.2 8 (row + d.1) (col + d.2) := by
        unfold flippedDir
        rw [if_pos hc]
      by_cases hxy : (x', y') ∈ runAux b player d.1 d.2 8 (row + d.1) (col + d.2)
      · rw [if_pos hxy]
        obtain ⟨k, hk, -⟩ := runAux_mem hxy
        rw [if_neg (by rw [hk]; exact ray_ne_center hdDir row col k)]
        rw [if_pos ((hmemSplit (x', y')).mpr (Or.inr (by rw [hfd]; exact hxy)))]
      · rw [if_neg hxy, hinv x' y']
        by_cases hcen : ((x', y') : Pos) = (row, col)
        · rw [if_pos hcen, if_pos hcen]
        · rw [if_neg hcen, if_neg hcen]
          by_cases hdm : (x', y') ∈ done.flatMap (flippedDir b row col player)
          · rw [if_pos hdm, if_pos ((hmemSplit (x', y')).mpr (Or.inl hdm))]
          · rw [if_neg hdm, if_neg ?hn]
            case hn =>
              intro hmm
              rcases (hmemSplit (x', y')).mp hmm with h | h
              · exact hdm h
              · rw [hfd] at h
                exact hxy h
    · rw [if_neg hc]
      refine ih (done ++ [d]) cb hsplit' ?_ x y
      intro x' y'
      rw [hinv x' y']
      have hfd : flippedDir b row col player d = [] := by
        unfold flippedDir
        rw [if_neg hc]
      by_cases hcen : ((x', y') : Pos) = (row, col)
      · rw [if_pos hcen, if_pos hcen]
      · rw [if_neg hcen, if_neg hcen]
        by_cases hdm : (x', y') ∈ done.flatMap (flippedDir b row col player)
        · rw [if_pos hdm, if_pos ((hmemSplit (x', y')).mpr (Or.inl hdm))]
        · rw [if_neg hdm, if_neg ?hn2]
          case hn2 =>
            intro hmm
            rcases (hmemSplit (x', y')).mp hmm with h | h
            · exact hdm h
            · rw [hfd] at h
              exact absurd h (List.not_mem_nil _)

/-- Pointwise description of `makeMove`: the placed cell gets the mover's
color, the cells of the legal runs (computed on the original board) get the
mover's color, and every other cell keeps its value. -/
theorem makeMove_apply (b : Board) (row col : Int) (player : Cell) (x y : Int) :
    makeMove b row col player x y =
      if (x, y) = (row, col) then player
      else if (x, y) ∈ flippedCells b row col player then player
      else b x y := by
  refine flip_fold_inv b row col player DIRECTIONS [] (setCell b row col player)
    rfl ?_ x y
  intro x' y'
  simp only [List.flatMap_nil, List.not_mem_nil, if_false]
  simp [setCell, Prod.ext_iff]

/-! ## Properties of the counted-as-flippable cells -/

/-- A cell counted as flippable belongs to the collected run of its
direction. -/
theorem flippedDir_subset {b : Board} {row col : Int} {player : Cell} {d : Pos}
    {q : Pos} (h : q ∈ flippedDir b row col player d) :
    q ∈ runAux b player d.1 d.2 8 (row + d.1) (col + d.2) := by
  unfold flippedDir at h
  by_cases hc : (isInBounds (runStop b player d.1 d.2 8 (row + d.1) (col + d.2)).1
        (runStop b player d.1 d.2 8 (row + d.1) (col + d.2)).2
      && decide (b (runStop b player d.1 d.2 8 (row + d.1) (col + d.2)).1
        (runStop b player d.1 d.2 8 (row + d.1) (col + d.2)).2 = player)
      && decide (0 < (runAux b player d.1 d.2 8 (row + d.1) (col + d.2)).length))
      = true
  · rwa [if_pos hc] at h
  · rw [if_neg hc] at h
    exact absurd h (List.not_mem_nil _)

/-- Every cell counted as flippable is in-bounds, occupied, and not the
mover's color. -/
theorem flippedCells_scanCond {b : Board} {row col : Int} {player : Cell}
    {q : Pos} (h : q ∈ flippedCells b row col player) :
    scanCond b player q.1 q.2 = true := by
  rw [flippedCells, List.mem_flatMap] at h
  obtain ⟨d, -, hq⟩ := h
  obtain ⟨-, -, hsc⟩ := runAux_mem (flippedDir_subset hq)
  exact hsc

/-- No counted-as-flippable cell is the placed cell. -/
theorem flippedCells_ne_center {b : Board} {row col : Int} {player : Cell}
    {q : Pos} (h : q ∈ flippedCells b row col player) : q ≠ (row, col) := by
  rw [flippedCells, List.mem_flatMap] at h
  obtain ⟨d, hd, hq⟩ := h
  obtain ⟨k, hk, -⟩ := runAux_mem (flippedDir_subset hq)
  rw [hk]
  exact ray_ne_center hd row col k

/-- A direction vector is never the zero vector. -/
theorem dir_ne_zero {d : Pos} (hd : d ∈ DIRECTIONS) : ¬(d.1 = 0 ∧ d.2 = 0) := by
  simp only [DIRECTIONS, List.mem_cons, List.not_mem_nil, or_false] at hd
  rcases hd with h | h | h | h | h | h | h | h <;> subst h <;> simp

/-- The counted-as-flippable cells are pairwise distinct. -/
theorem flippedCells_nodup (b : Board) (row col : Int) (player : Cell) :
    (flippedCells b row col player).Nodup := by
  rw [flippedCells, List.nodup_flatMap]
  constructor
  · intro d hd
    unfold flippedDir
    by_cases hc : (isInBounds (runStop b player d.1 d.2 8 (row + d.1) (col + d.2)).1
          (runStop b player d.1 d.2 8 (row + d.1) (col + d.2)).2
        && decide (b (runStop b player d.1 d.2 8 (row + d.1) (col + d.2)).1
          (runStop b player d.1 d.2 8 (row + d.1) (col + d.2)).2 = player)
        && decide (0 < (runAux b player d.1 d.2 8 (row + d.1) (col + d.2)).length))
        = true
    · rw [if_pos hc]
      exact runAux_nodup (dir_ne_zero hd) 8 (row + d.1) (col + d.2)
    · rw [if_neg hc]
      exact List.nodup_nil
  · have hnd : DIRECTIONS.Nodup := by decide
    refine hnd.imp_of_mem ?_
    intro d d' hd hd' hne q hq hq'
    obtain ⟨k, hk, -⟩ := runAux_mem (flippedDir_subset hq)
    obtain ⟨k', hk', -⟩ := runAux_mem (flippedDir_subset hq')
    exact ray_disjoint hd hd' hne row col k k' (hk ▸ hk' ▸ rfl)

/-- `countFlips` is the number of cells counted as flippable. -/
theorem countFlips_eq_length (b : Board) (row col : Int) (player : Cell)
    (hempty : b row col = Cell.empty) :
    countFlips b row col player = (flippedCells b row col player).length := by
  rw [countFlips, if_neg (by rw [hempty]; simp)]
  rw [flippedCells]
  have hstep : ∀ (t : Nat), ∀ d ∈ DIRECTIONS,
      (if isInBounds (runStop b player d.1 d.2 8 (row + d.1) (col + d.2)).1
            (runStop b player d.1 d.2 8 (row + d.1) (col + d.2)).2
          && decide (b (runStop b player d.1 d.2 8 (row + d.1) (col + d.2)).1
            (runStop b player d.1 d.2 8 (row + d.1) (col + d.2)).2 = player)
          && decide (0 < (runAux b player d.1 d.2 8 (row + d.1) (col + d.2)).length)
        then t + (runAux b player d.1 d.2 8 (row + d.1) (col + d.2)).length
        else t)
      = t + (flippedDir b row col player d).length := by
    intro t d _
    unfold flippedDir
    by_cases hc : (isInBounds (runStop b player d.1 d.2 8 (row + d.1) (col + d.2)).1
          (runStop b player d.1 d.2 8 (row + d.1) (col + d.2)).2
        && decide (b (runStop b player d.1 d.2 8 (row + d.1) (col + d.2)).1
          (runStop b player d.1 d.2 8 (row + d.1) (col + d.2)).2 = player)
        && decide (0 < (runAux b player d.1 d.2 8 (row + d.1) (col + d.2)).length))
        = true
    · rw [if_pos hc, if_pos hc]
    · rw [if_neg hc, if_neg hc]
      simp
  rw [List.foldl_ext _ _ 0 hstep]
  have hgen : ∀ (l : List Pos) (acc : Nat),
      l.foldl (fun t d => t + (flippedDir b row col player d).length) acc
        = acc + (l.flatMap (flippedDir b row col player)).length := by
    intro l
    induction l with
    | nil => intro acc; simp
    | cons d l ih =>
      intro acc
      rw [List.foldl_cons, ih, List.flatMap_cons, List.length_append]
      omega
  rw [hgen]
  omega

/-! ## The 64 board cells -/

/-- Membership in the row-major cell enumeration is exactly the bounds
check. -/
theorem mem_cellsList {q : Pos} : q ∈ cellsList ↔ isInBounds q.1 q.2 = true := by
  obtain ⟨qx, qy⟩ := q
  constructor
  · intro h
    unfold cellsList at h
    obtain ⟨r, hrmem, hq⟩ := List.mem_flatMap.mp h
    obtain ⟨c, hcmem, hq2⟩ := List.mem_map.mp hq
    rw [List.mem_range] at hrmem hcmem
    rw [Prod.mk.injEq] at hq2
    obtain ⟨h1, h2⟩ := hq2
    subst h1
    subst h2
    simp only [isInBounds, Bool.and_eq_true, decide_eq_true_eq]
    omega
  · intro h
    simp only [isInBounds, Bool.and_eq_true, decide_eq_true_eq] at h
    unfold cellsList
    refine List.mem_flatMap.mpr ⟨qx.toNat, by rw [List.mem_range]; omega, ?_⟩
    refine List.mem_map.mpr ⟨qy.toNat, by rw [List.mem_range]; omega, ?_⟩
    rw [Prod.mk.injEq]
    constructor <;> omega

/-- The row-major cell enumeration has no duplicates. -/
theorem cellsList_nodup : cellsList.Nodup := by decide

/-- The inline opponent computation `player === BLACK ? WHITE : BLACK` used
throughout the source. -/
def oppositeOf (p : Cell) : Cell :=
  if p = Cell.black then Cell.white else Cell.black

/-- Auxiliary fact shared by several claims: a cell is counted as flippable
by `countFlips` iff it is a non-placed cell changed by `makeMove`. -/
theorem flipped_iff_changed (b : Board) (row col : Int) (player : Cell)
    (q : Pos) :
    q ∈ flippedCells b row col player ↔
      (q ≠ (row, col) ∧ makeMove b row col player q.1 q.2 ≠ b q.1 q.2) := by
  obtain ⟨qx, qy⟩ := q
  constructor
  · intro hmem
    refine ⟨flippedCells_ne_center hmem, ?_⟩
    rw [makeMove_apply, if_neg (flippedCells_ne_center hmem), if_pos hmem]
    have hsc := flippedCells_scanCond hmem
    simp only [scanCond, Bool.and_eq_true, decide_eq_true_eq] at hsc
    exact fun he => hsc.2 he.symm
  · rintro ⟨hne, hch⟩
    by_contra hnm
    rw [makeMove_apply, if_neg hne, if_neg hnm] at hch
    exact hch rfl

/-- C1: for every 8x8 board and every `(row, col, player)` with the target
cell `Empty`, applying `makeMove` (i) sets the placed cell to the player's
color, (ii) changes exactly `countFlips b row col player` board cells in
addition to the placed cell, (iii) changes each such cell from the opponent's
color to the player's color, and (iv) changes a non-placed cell iff
`countFlips` counted it as flippable (round-trip flip/count consistency). -/
theorem c1_flip_count_roundtrip (b : Board) (row col : Int) (player : Cell)
    (_hin : isInBounds row col = true)
    (hempty : b row col = Cell.empty)
    (hp : player = Cell.black ∨ player = Cell.white) :
    makeMove b row col player row col = player ∧
    ((cellsList.toFinset.filter (fun q : Pos =>
        q ≠ (row, col) ∧ makeMove b row col player q.1 q.2 ≠ b q.1 q.2)).card
      = countFlips b row col player) ∧
    (∀ q : Pos, q ≠ (row, col) → makeMove b row col player q.1 q.2 ≠ b q.1 q.2 →
      b q.1 q.2 = oppositeOf player ∧ makeMove b row col player q.1 q.2 = player) ∧
    (∀ q : Pos, q ∈ flippedCells b row col player ↔
      (q ≠ (row, col) ∧ makeMove b row col player q.1 q.2 ≠ b q.1 q.2)) := by
  have hplaced : makeMove b row col player row col = player := by
    rw [makeMove_apply]
    simp
  refine ⟨hplaced, ?_, ?_, flipped_iff_changed b row col player⟩
  · rw [countFlips_eq_length b row col player hempty]
    have hset : cellsList.toFinset.filter (fun q : Pos =>
          q ≠ (row, col) ∧ makeMove b row col player q.1 q.2 ≠ b q.1 q.2)
        = (flippedCells b row col player).toFinset := by
      ext q
      simp only [Finset.mem_filter, List.mem_toFinset]
      constructor
      · rintro ⟨-, hne, hch⟩
        exact (flipped_iff_changed b row col player q).mpr ⟨hne, hch⟩
      · intro hmem
        have hsc := flippedCells_scanCond hmem
        simp only [scanCond, Bool.and_eq_true, decide_eq_true_eq] at hsc
        exact ⟨mem_cellsList.mpr hsc.1.1,
          (flipped_iff_changed b row col player q).mp hmem⟩
    rw [hset, List.toFinset_card_of_nodup (flippedCells_nodup b row col player)]
  · intro q hne hch
    have hmem := (flipped_iff_changed b row col player q).mpr ⟨hne, hch⟩
    have hsc := flippedCells_scanCond hmem
    simp only [scanCond, Bool.and_eq_true, decide_eq_true_eq] at hsc
    obtain ⟨⟨-, hnempty⟩, hnplayer⟩ := hsc
    constructor
    · rcases hp with h | h <;> subst h <;> cases hbq : b q.1 q.2
      · exact absurd hbq hnempty
      · exact absurd hbq hnplayer
      · simp [oppositeOf]
      · exact absurd hbq hnempty
      · simp [oppositeOf]
      · exact absurd hbq hnplayer
    · rw [makeMove_apply, if_neg hne, if_pos hmem]

/-- Witness for C1 at the start board, Black playing (2,3). -/
theorem c1_flip_count_roundtrip_witness :
    makeMove startBoard 2 3 Cell.black 2 3 = Cell.black ∧
    ((cellsList.toFinset.filter (fun q : Pos =>
        q ≠ ((2 : Int), (3 : Int))
          ∧ makeMove startBoard 2 3 Cell.black q.1 q.2 ≠ startBoard q.1 q.2)).card
      = countFlips startBoard 2 3 Cell.black) ∧
    (∀ q : Pos, q ≠ ((2 : Int), (3 : Int)) →
      makeMove startBoard 2 3 Cell.black q.1 q.2 ≠ startBoard q.1 q.2 →
      startBoard q.1 q.2 = oppositeOf Cell.black ∧
        makeMove startBoard 2 3 Cell.black q.1 q.2 = Cell.black) ∧
    (∀ q : Pos, q ∈ flippedCells startBoard 2 3 Cell.black ↔
      (q ≠ ((2 : Int), (3 : Int))
        ∧ makeMove startBoard 2 3 Cell.black q.1 q.2 ≠ startBoard q.1 q.2)) :=
  c1_flip_count_roundtrip startBoard 2 3 Cell.black (by decide) (by decide)
    (Or.inl rfl)

/-- C5: `getValidMoves` is exactly the row-major filter of all 64 cells by
`isValidMove` (hence duplicate-free, in row-major order, and containing a
cell iff `isValidMove` holds there), and on the standard start board with
Black to move it returns exactly `[(2,3), (3,2), (4,5), (5,4)]`. -/
theorem c5_getValidMoves_complete :
    (∀ (b : Board) (player : Cell),
      getValidMoves b player
          = cellsList.filter (fun q => isValidMove b q.1 q.2 player) ∧
        (getValidMoves b player).Nodup ∧
        (∀ q : Pos, q ∈ getValidMoves b player ↔
          (isInBounds q.1 q.2 = true ∧ isValidMove b q.1 q.2 player = true))) ∧
    getValidMoves startBoard Cell.black = [(2, 3), (3, 2), (4, 5), (5, 4)] := by
  have hinner : ∀ (b : Board) (player : Cell) (r : Nat) (l : List Nat),
      l.filterMap (fun (col : Nat) =>
          if isValidMove b (r : Int) (col : Int) player
          then some ((r : Int), (col : Int)) else none)
        = (l.map (fun (col : Nat) => ((r : Int), (col : Int)))).filter
            (fun q => isValidMove b q.1 q.2 player) := by
    intro b player r l
    induction l with
    | nil => rfl
    | cons c l ih =>
      simp only [List.filterMap_cons, List.map_cons, List.filter_cons]
      by_cases h : isValidMove b (r : Int) (c : Int) player = true
      · simp [h, ih]
      · simp [h, ih]
  have hfilter : ∀ (b : Board) (player : Cell),
      getValidMoves b player
        = cellsList.filter (fun q => isValidMove b q.1 q.2 player) := by
    intro b player
    unfold getValidMoves cellsList
    have houter : ∀ l : List Nat,
        l.flatMap (fun (row : Nat) => (List.range 8).filterMap (fun (col : Nat) =>
            if isValidMove b (row : Int) (col : Int) player
            then some ((row : Int), (col : Int)) else none))
          = (l.flatMap (fun (row : Nat) =>
              (List.range 8).map (fun (col : Nat) => ((row : Int), (col : Int))))).filter
              (fun q => isValidMove b q.1 q.2 player) := by
      intro l
      induction l with
      | nil => rfl
      | cons r l ih =>
        simp only [List.flatMap_cons, List.filter_append]
        rw [ih, hinner b player r]
    exact houter (List.range 8)
  refine ⟨fun b player => ⟨hfilter b player, ?_, ?_⟩, by decide⟩
  · rw [hfilter]
    exact cellsList_nodup.filter _
  · intro q
    rw [hfilter, List.mem_filter, mem_cellsList]

/-- C6: applying Black's move at (2,3) to the standard start board sets (2,3)
to Black, flips (3,3) from White to Black, leaves every other cell unchanged,
and the resulting disc counts are Black=4, White=1. -/
theorem c6_start_move_frame :
    makeMove startBoard 2 3 Cell.black 2 3 = Cell.black ∧
    startBoard 2 3 = Cell.empty ∧
    startBoard 3 3 = Cell.white ∧
    makeMove startBoard 2 3 Cell.black 3 3 = Cell.black ∧
    (∀ x y : Int, (x, y) = ((2 : Int), (3 : Int)) ∨ (x, y) = ((3 : Int), (3 : Int)) ∨
      makeMove startBoard 2 3 Cell.black x y = startBoard x y) ∧
    countDiscs (makeMove startBoard 2 3 Cell.black) = (4, 1) := by
  refine ⟨by decide, by decide, by decide, by decide, ?_, by decide⟩
  intro x y
  by_cases h23 : ((x, y) : Pos) = (2, 3)
  · exact Or.inl h23
  by_cases h33 : ((x, y) : Pos) = (3, 3)
  · exact Or.inr (Or.inl h33)
  refine Or.inr (Or.inr ?_)
  rw [makeMove_apply, if_neg h23, if_neg ?_]
  have hfc : flippedCells startBoard 2 3 Cell.black = [(3, 3)] := by decide
  rw [hfc]
  simp [h33]

/-- C8: `makeMove` performs no validity check: for every board, target cell,
and player — including occupied targets and zero-flip targets — it
unconditionally overwrites the target cell with the player's color; as a
concrete instance, replaying Black onto the occupied center (3,3) of the
start board overwrites it. -/
theorem c8_makeMove_no_validation :
    (∀ (b : Board) (row col : Int) (player : Cell),
      makeMove b row col player row col = player) ∧
    makeMove startBoard 3 3 Cell.black 3 3 = Cell.black ∧
    startBoard 3 3 ≠ Cell.empty := by
  refine ⟨?_, by decide, by decide⟩
  intro b row col player
  rw [makeMove_apply]
  simp

/-! ## JS numbers for the search: rationals with the two infinities

The decimal weight literals of the evaluator are modelled as the exact
rationals they denote; the claims proved below do not depend on
floating-point rounding. -/

/-- A JS number as used by the search: a finite value or `±Infinity`
(the alpha/beta sentinels). -/
inductive JSNum where
  | negInf
  | num (q : ℚ)
  | posInf
deriving DecidableEq

/-- JS `a <= b` on search values. -/
def JSNum.leb : JSNum → JSNum → Bool
  | .negInf, _ => true
  | _, .posInf => true
  | .num a, .num b => decide (a ≤ b)
  | _, _ => false

/-- JS `a < b` on search values. -/
def JSNum.ltb : JSNum → JSNum → Bool
  | _, .negInf => false
  | .negInf, _ => true
  | .num a, .num b => decide (a < b)
  | .num _, .posInf => true
  | .posInf, _ => false

/-- JS `Math.max` on search values. -/
def JSNum.maxJ (a b : JSNum) : JSNum := if JSNum.leb a b then b else a

/-- JS `Math.min` on search values. -/
def JSNum.minJ (a b : JSNum) : JSNum := if JSNum.leb a b then a else b

/-- The game phase strings `early` / `mid` / `late` of the source. -/
inductive Phase where
  | early
  | mid
  | late
deriving DecidableEq

/-- The static `positionWeights` matrix of `evaluatePosition`. -/
def positionWeights : List (List Int) :=
  [[100, -20, 10,  5,  5, 10, -20, 100],
   [-20, -50, -2, -2, -2, -2, -50, -20],
   [ 10,  -2,  5,  1,  1,  5,  -2,  10],
   [  5,  -2,  1,  0,  0,  1,  -2,   5],
   [  5,  -2,  1,  0,  0,  1,  -2,   5],
   [ 10,  -2,  5,  1,  1,  5,  -2,  10],
   [-20, -50, -2, -2, -2, -2, -50, -20],
   [100, -20, 10,  5,  5, 10, -20, 100]]

/-- `evaluatePosition(row, col)`: lookup in the static weight matrix (the
source only calls it with in-bounds coordinates). -/
def evaluatePosition (row col : Int) : Int :=
  (positionWeights.getD row.toNat []).getD col.toNat 0

/-- The corner cells used by the evaluator and the hard strategy. -/
def cornersList : List Pos := [(0, 0), (0, 7), (7, 0), (7, 7)]

/-- Edge-control contribution of one cell: +1 for maxPlayer, -1 for
minPlayer, 0 otherwise. -/
def edgeTerm (b : Board) (maxP minP : Cell) (x y : Int) : Int :=
  (if b x y = maxP then 1 else 0) - (if b x y = minP then 1 else 0)

/-- `evaluateBoard(board, maxPlayer, minPlayer, gamePhase)`: the six-term
weighted composite evaluator. -/
def evaluateBoard (b : Board) (maxP minP : Cell) (ph : Phase) : ℚ :=
  let discParity : Int :=
    if maxP = Cell.black
    then ((countDiscs b).1 : Int) - ((countDiscs b).2 : Int)
    else ((countDiscs b).2 : Int) - ((countDiscs b).1 : Int)
  let mobility : Int :=
    ((getValidMoves b maxP).length : Int) - ((getValidMoves b minP).length : Int)
  let cornerScore : Int :=
    cornersList.foldl (fun s q =>
      if b q.1 q.2 = maxP then s + 25
      else if b q.1 q.2 = minP then s - 25
      else s) 0
  let potentialMobility : Int :=
    ((cellsList.filter (fun q =>
      decide (b q.1 q.2 = Cell.empty)
        && DIRECTIONS.any (fun d =>
          isInBounds (q.1 + d.1) (q.2 + d.2)
            && decide (b (q.1 + d.1) (q.2 + d.2) = minP)))).length : Int)
  let edgeControl : Int :=
    (List.range 8).foldl (fun s (c : Nat) =>
      s + edgeTerm b maxP minP 0 (c : Int) + edgeTerm b maxP minP 7 (c : Int)) 0
    + (List.range 8).foldl (fun s (r : Nat) =>
      s + edgeTerm b maxP minP (r : Int) 0 + edgeTerm b maxP minP (r : Int) 7) 0
  let positionScore : Int :=
    cellsList.foldl (fun s q =>
      if b q.1 q.2 = maxP then s + evaluatePosition q.1 q.2
      else if b q.1 q.2 = minP then s - evaluatePosition q.1 q.2
      else s) 0
  let w : ℚ × ℚ × ℚ × ℚ × ℚ × ℚ :=
    match ph with
    | .early => (1/10, 5/2, 4, 1, 3/2, 1)
    | .mid => (4/5, 2, 3, 1, 1, 1/2)
    | .late => (7/2, 1, 2, 1/2, 1/2, 0)
  w.1 * (discParity : ℚ) + w.2.1 * (mobility : ℚ) + w.2.2.1 * (cornerScore : ℚ)
    + w.2.2.2.1 * (positionScore : ℚ) + w.2.2.2.2.1 * (edgeControl : ℚ)
    + w.2.2.2.2.2 * (potentialMobility : ℚ)

/-- The maximizing move loop of `minimax` with alpha update and beta cutoff;
`f` is the recursive evaluation of a child position at the current alpha. -/
def abMaxLoop (board : Board) (player : Cell) (beta : JSNum)
    (f : Board → JSNum → JSNum) :
    List Pos → JSNum → JSNum → JSNum
  | [], maxEval, _ => maxEval
  | m :: rest, maxEval, alpha =>
    if JSNum.leb beta
        (JSNum.maxJ alpha (f (makeMove board m.1 m.2 player) alpha))
    then JSNum.maxJ maxEval (f (makeMove board m.1 m.2 player) alpha)
    else abMaxLoop board player beta f rest
      (JSNum.maxJ maxEval (f (makeMove board m.1 m.2 player) alpha))
      (JSNum.maxJ alpha (f (makeMove board m.1 m.2 player) alpha))

/-- The minimizing move loop of `minimax` with beta update and alpha
cutoff. -/
def abMinLoop (board : Board) (player : Cell) (alpha : JSNum)
    (f : Board → JSNum → JSNum) :
    List Pos → JSNum → JSNum → JSNum
  | [], minEval, _ => minEval
  | m :: rest, minEval, beta =>
    if JSNum.leb (JSNum.minJ beta (f (makeMove board m.1 m.2 player) beta)) alpha
    then JSNum.minJ minEval (f (makeMove board m.1 m.2 player) beta)
    else abMinLoop board player alpha f rest
      (JSNum.minJ minEval (f (makeMove board m.1 m.2 player) beta))
      (JSNum.minJ beta (f (makeMove board m.1 m.2 player) beta))

/-- `minimax(board, depth, alpha, beta, isMaximizingPlayer, maxPlayer,
minPlayer, gamePhase)`.  Recursion is on `depth`: every recursive call of the
source — child move, or pass when the mover is stuck — runs at `depth - 1`. -/
def minimax : Board → Nat → JSNum → JSNum → Bool → Cell → Cell → Phase → JSNum
  | board, 0, _, _, _, maxP, minP, ph =>
    JSNum.num (evaluateBoard board maxP minP ph)
  | board, d + 1, alpha, beta, isMax, maxP, minP, ph =>
    if (getValidMoves board (if isMax then maxP else minP)).length = 0 then
      if (getValidMoves board
          (oppositeOf (if isMax then maxP else minP))).length = 0 then
        JSNum.num (((if maxP = Cell.black
          then ((countDiscs board).1 : Int) - ((countDiscs board).2 : Int)
          else ((countDiscs board).2 : Int) - ((countDiscs board).1 : Int))
            * 1000 : Int) : ℚ)
      else minimax board d alpha beta (!isMax) maxP minP ph
    else if isMax then
      abMaxLoop board (if isMax then maxP else minP) beta
        (fun bc a => minimax bc d a beta false maxP minP ph)
        (getValidMoves board (if isMax then maxP else minP)) JSNum.negInf alpha
    else
      abMinLoop board (if isMax then maxP else minP) alpha
        (fun bc bt => minimax bc d alpha bt true maxP minP ph)
        (getValidMoves board (if isMax then maxP else minP)) JSNum.posInf beta

/-- The source recursion once more, but bounded by explicit fuel instead of
relying on `depth` reaching `0`: each call consumes one unit of fuel, and an
exhausted fuel returns a default.  `c7` shows the fuel is never exhausted
when it exceeds `depth`, i.e. the source recursion always bottoms out. -/
def minimaxFuel : Nat → Board → Nat → JSNum → JSNum → Bool → Cell → Cell → Phase → JSNum
  | 0, _, _, _, _, _, _, _, _ => JSNum.num 0
  | fuel + 1, board, depth, alpha, beta, isMax, maxP, minP, ph =>
    if depth = 0 then JSNum.num (evaluateBoard board maxP minP ph)
    else
      if (getValidMoves board (if isMax then maxP else minP)).length = 0 then
        if (getValidMoves board
            (oppositeOf (if isMax then maxP else minP))).length = 0 then
          JSNum.num (((if maxP = Cell.black
            then ((countDiscs board).1 : Int) - ((countDiscs board).2 : Int)
            else ((countDiscs board).2 : Int) - ((countDiscs board).1 : Int))
              * 1000 : Int) : ℚ)
        else minimaxFuel fuel board (depth - 1) alpha beta (!isMax) maxP minP ph
      else if isMax then
        abMaxLoop board (if isMax then maxP else minP) beta
          (fun bc a => minimaxFuel fuel bc (depth - 1) a beta false maxP minP ph)
          (getValidMoves board (if isMax then maxP else minP)) JSNum.negInf alpha
      else
        abMinLoop board (if isMax then maxP else minP) alpha
          (fun bc bt => minimaxFuel fuel bc (depth - 1) alpha bt true maxP minP ph)
          (getValidMoves board (if isMax then maxP else minP)) JSNum.posInf beta

/-! ## The three difficulty strategies -/

/-- `makeEasyMove(validMoves)`: the single candidate if only one exists,
otherwise the entry at `Math.floor(rnd * length)` where `rnd` is the
value drawn from `Math.random()` (made an explicit parameter here). -/
def makeEasyMove (rnd : ℚ) (validMoves : List Pos) : Pos :=
  if validMoves.length = 1 then validMoves.headD (0, 0)
  else validMoves.getD (⌊rnd * (validMoves.length : ℚ)⌋).toNat (0, 0)

/-- The corner-adjacent cells zeroed by the medium score map (written last in
the source, so they override the edge values). -/
def adjacentCornersList : List Pos :=
  [(0, 1), (1, 0), (1, 1),
   (0, 6), (1, 7), (1, 6),
   (6, 0), (7, 1), (6, 1),
   (6, 7), (7, 6), (6, 6)]

/-- The final contents of the `scoreMap` built by `makeMediumMove`: the map
starts all 1, corners are set to 10, non-corner border cells to 5, and the
corner-adjacent cells (set last) to 0. -/
def mediumScore (q : Pos) : Nat :=
  if q ∈ adjacentCornersList then 0
  else if q ∈ cornersList then 10
  else if q.1 = 0 ∨ q.1 = 7 ∨ q.2 = 0 ∨ q.2 = 7 then 5
  else 1

/-- `makeMediumMove(validMoves)`: the single candidate if only one exists,
otherwise a `reduce` keeping the first score-map maximum (strict `>`). -/
def makeMediumMove (validMoves : List Pos) : Pos :=
  if validMoves.length = 1 then validMoves.headD (0, 0)
  else
    validMoves.foldl (fun bestMove currentMove =>
        if mediumScore currentMove > mediumScore bestMove then currentMove
        else bestMove)
      (validMoves.headD (0, 0))

/-- The corner test of `makeHardMove`'s `find`. -/
def isCornerMove (q : Pos) : Bool :=
  (decide (q.1 = 0) || decide (q.1 = 7)) && (decide (q.2 = 0) || decide (q.2 = 7))

/-- `makeHardMove(validMoves)` (the source reads `board` and `computerDisc`
from the ambient game state; they are explicit parameters here): single
candidate shortcut, then corner shortcut, then depth-limited minimax over the
candidates keeping the first strict improvement. -/
def makeHardMove (board : Board) (computerDisc : Cell)
    (validMoves : List Pos) : Pos :=
  if validMoves.length = 1 then validMoves.headD (0, 0)
  else
    match validMoves.find? isCornerMove with
    | some cornerMove => cornerMove
    | none =>
      let opponentDisc := oppositeOf computerDisc
      let totalDiscs := (countDiscs board).1 + (countDiscs board).2
      let gamePhase :=
        if totalDiscs < 20 then Phase.early
        else if totalDiscs < 50 then Phase.mid else Phase.late
      let searchDepth : Nat :=
        if gamePhase = Phase.late then
          (if validMoves.length > 8 then 3
           else if validMoves.length > 4 then 4 else 5)
        else
          (if validMoves.length > 10 then 2
           else if validMoves.length > 6 then 3 else 4)
      (validMoves.foldl (fun acc move =>
          if JSNum.ltb acc.1 (minimax (makeMove board move.1 move.2 computerDisc)
              (searchDepth - 1) JSNum.negInf JSNum.posInf false computerDisc
              opponentDisc gamePhase)
          then (minimax (makeMove board move.1 move.2 computerDisc)
              (searchDepth - 1) JSNum.negInf JSNum.posInf false computerDisc
              opponentDisc gamePhase, move)
          else acc)
        (JSNum.negInf, validMoves.headD (0, 0))).2

/-- The difficulty selector values of the strategy dispatch table. -/
inductive Difficulty where
  | easy
  | medium
  | hard
deriving DecidableEq

/-- The strategy dispatch of `makeComputerMove`: one entry point per
difficulty.  Only the easy strategy consumes the random draw. -/
def selectMove (difficulty : Difficulty) (rnd : ℚ) (board : Board)
    (computerDisc : Cell) (validMoves : List Pos) : Pos :=
  match difficulty with
  | .easy => makeEasyMove rnd validMoves
  | .medium => makeMediumMove validMoves
  | .hard => makeHardMove board computerDisc validMoves

/-! ## Undo history -/

/-- The fields copied by `saveToHistory`. -/
structure Snapshot where
  board : Board
  currentPlayer : Cell
  lastMove : Option Pos
  moveCounter : Nat

/-- `saveToHistory`: push the snapshot, then `shift` away the oldest entry
when the length exceeds 10. -/
def saveToHistory (history : List Snapshot) (s : Snapshot) : List Snapshot :=
  if (history ++ [s]).length > 10 then (history ++ [s]).tail
  else history ++ [s]

/-- The operations of the source that touch `gameState.moveHistory`:
`saveToHistory` (before a player move), `undoLastMove` (a `pop` guarded to do
nothing on an empty history — its thinking/game-over guards also leave the
history unchanged), and `initializeBoard` (reset to empty). -/
inductive HistOp where
  | save (s : Snapshot)
  | undo
  | reset

/-- One history-touching operation. -/
def histStep (h : List Snapshot) : HistOp → List Snapshot
  | .save s => saveToHistory h s
  | .undo => if h.length = 0 then h else h.dropLast
  | .reset => []

/-! ## C3: the medium strategy -/

/-- A position whose legal moves for Black are exactly `[(0,3), (0,5)]`:
White at (1,3) and (1,5), Black at (2,3) and (2,5). -/
def mediumCexBoard : Board := fun x y =>
  if x = 1 ∧ y = 3 then Cell.white
  else if x = 1 ∧ y = 5 then Cell.white
  else if x = 2 ∧ y = 3 then Cell.black
  else if x = 2 ∧ y = 5 then Cell.black
  else Cell.empty

/-- C3 counterexample: the legal-move list `[(0,3), (0,5)]` (generated by a
real position with Black to move) has at least two moves, the medium strategy
returns `(0,3)`, yet the positional weight table scores `(0,5)` strictly
higher — so the medium strategy does not pick the weight-table maximum. -/
theorem c3_counterexample :
    getValidMoves mediumCexBoard Cell.black = [(0, 3), (0, 5)] ∧
    makeMediumMove [(0, 3), (0, 5)] = (0, 3) ∧
    evaluatePosition 0 3 < evaluatePosition 0 5 :=
  ⟨by decide, by decide, by decide⟩

/-- A left fold with strict improvement keeps the first maximum: either the
seed already dominates the list, or the result is a list element strictly
above the seed and everything before it, and at least everything after it. -/
theorem foldl_first_max (f : Pos → Nat) :
    ∀ (l : List Pos) (b : Pos),
      (l.foldl (fun best cur => if f cur > f best then cur else best) b = b ∧
        ∀ q ∈ l, f q ≤ f b) ∨
      (∃ pre x post, l = pre ++ x :: post ∧
        l.foldl (fun best cur => if f cur > f best then cur else best) b = x ∧
        f b < f x ∧ (∀ q ∈ pre, f q < f x) ∧ (∀ q ∈ post, f q ≤ f x)) := by
  intro l
  induction l with
  | nil => intro b; exact Or.inl ⟨rfl, by simp⟩
  | cons a l ih =>
    intro b
    rw [List.foldl_cons]
    by_cases h : f a > f b
    · rw [if_pos h]
      rcases ih a with ⟨heq, hle⟩ | ⟨pre, x, post, hsplit, heq, hlt, hpre, hpost⟩
      · exact Or.inr ⟨[], a, l, by simp, heq, h, by simp, hle⟩
      · refine Or.inr ⟨a :: pre, x, post, by rw [hsplit]; rfl, heq,
          lt_trans h hlt, ?_, hpost⟩
        intro q hq
        rcases List.mem_cons.mp hq with rfl | hq
        · exact hlt
        · exact hpre q hq
    · rw [if_neg h]
      have hab : f a ≤ f b := Nat.le_of_not_lt h
      rcases ih b with ⟨heq, hle⟩ | ⟨pre, x, post, hsplit, heq, hlt, hpre, hpost⟩
      · refine Or.inl ⟨heq, ?_⟩
        intro q hq
        rcases List.mem_cons.mp hq with rfl | hq
        · exact hab
        · exact hle q hq
      · refine Or.inr ⟨a :: pre, x, post, by rw [hsplit]; rfl, heq, hlt, ?_, hpost⟩
        intro q hq
        rcases List.mem_cons.mp hq with rfl | hq
        · exact lt_of_le_of_lt hab hlt
        · exact hpre q hq

/-- C3 (amended): for every legal-move list of at least two in-bounds moves,
the medium strategy returns the move whose score under its own score map
(corners 10, non-corner border cells 5, corner-adjacent cells 0, interior 1)
is highest — not the positional weight table — with ties resolved to the
first such move in generator order. -/
theorem c3_medium_first_own_map_max (vm : List Pos) (h2 : 2 ≤ vm.length)
    (_hin : ∀ q ∈ vm, isInBounds q.1 q.2 = true) :
    ∃ pre post, vm = pre ++ makeMediumMove vm :: post ∧
      (∀ q ∈ pre, mediumScore q < mediumScore (makeMediumMove vm)) ∧
      (∀ q ∈ vm, mediumScore q ≤ mediumScore (makeMediumMove vm)) := by
  rcases vm with - | ⟨a, rest⟩
  · simp at h2
  · have hlen : ¬((a :: rest).length = 1) := by
      simp only [List.length_cons] at h2 ⊢
      omega
    have hR : makeMediumMove (a :: rest)
        = (a :: rest).foldl (fun best cur =>
            if mediumScore cur > mediumScore best then cur else best) a := by
      unfold makeMediumMove
      rw [if_neg hlen]
      rfl
    rcases foldl_first_max mediumScore (a :: rest) a with
      ⟨heq, hle⟩ | ⟨pre, x, post, hsplit, heq, hlt, hpre, hpost⟩
    · refine ⟨[], rest, ?_, by simp, ?_⟩
      · rw [hR, heq]
        rfl
      · intro q hq
        rw [hR, heq]
        exact hle q hq
    · refine ⟨pre, post, ?_, ?_, ?_⟩
      · rw [hR, heq]
        exact hsplit
      · intro q hq
        rw [hR, heq]
        exact hpre q hq
      · intro q hq
        rw [hR, heq]
        rcases List.mem_append.mp (hsplit ▸ hq) with hq' | hq'
        · exact le_of_lt (hpre q hq')
        · rcases List.mem_cons.mp hq' with rfl | hq''
          · exact le_refl _
          · exact hpost q hq''

/-- Witness for the amended C3 at the counterexample's legal-move list. -/
theorem c3_medium_first_own_map_max_witness :
    ∃ pre post, [((0 : Int), (3 : Int)), (0, 5)]
        = pre ++ makeMediumMove [(0, 3), (0, 5)] :: post ∧
      (∀ q ∈ pre, mediumScore q < mediumScore (makeMediumMove [(0, 3), (0, 5)])) ∧
      (∀ q ∈ [((0 : Int), (3 : Int)), (0, 5)],
        mediumScore q ≤ mediumScore (makeMediumMove [(0, 3), (0, 5)])) :=
  c3_medium_first_own_map_max [(0, 3), (0, 5)] (by decide) (by decide)

/-! ## C4: the hard strategy's corner shortcut -/

/-- C4: whenever the legal-move list contains a corner, the hard strategy
returns a corner move from the list, and the returned move is independent of
the board and disc color — the minimax search is never consulted. -/
theorem c4_hard_corner_shortcut (board : Board) (computerDisc : Cell)
    (vm : List Pos) (hc : ∃ m ∈ vm, isCornerMove m = true) :
    isCornerMove (makeHardMove board computerDisc vm) = true ∧
    makeHardMove board computerDisc vm ∈ vm ∧
    (∀ (board' : Board) (disc' : Cell),
      makeHardMove board' disc' vm = makeHardMove board computerDisc vm) := by
  by_cases hlen : vm.length = 1
  · obtain ⟨m, rfl⟩ := List.length_eq_one.mp hlen
    obtain ⟨m', hm', hcorner⟩ := hc
    rcases List.mem_singleton.mp hm' with rfl
    have hval : ∀ (bb : Board) (dd : Cell), makeHardMove bb dd [m'] = m' := by
      intro bb dd
      unfold makeHardMove
      rw [if_pos (by simp)]
      rfl
    exact ⟨by rw [hval]; exact hcorner, by rw [hval]; exact List.mem_singleton_self m',
      fun b' d' => by rw [hval, hval]⟩
  · have hsome : (vm.find? isCornerMove).isSome := List.find?_isSome.mpr hc
    obtain ⟨c, hfind⟩ := Option.isSome_iff_exists.mp hsome
    have hval : ∀ (bb : Board) (dd : Cell), makeHardMove bb dd vm = c := by
      intro bb dd
      unfold makeHardMove
      rw [if_neg hlen, hfind]
    exact ⟨by rw [hval]; exact List.find?_some hfind,
      by rw [hval]; exact List.mem_of_find?_eq_some hfind,
      fun b' d' => by rw [hval, hval]⟩

/-- Witness for C4: a legal-move list holding the corner (0,0). -/
theorem c4_hard_corner_shortcut_witness :
    isCornerMove (makeHardMove startBoard Cell.white [(0, 0), (2, 3)]) = true ∧
    makeHardMove startBoard Cell.white [(0, 0), (2, 3)]
      ∈ [((0 : Int), (0 : Int)), (2, 3)] ∧
    (∀ (board' : Board) (disc' : Cell),
      makeHardMove board' disc' [(0, 0), (2, 3)]
        = makeHardMove startBoard Cell.white [(0, 0), (2, 3)]) :=
  c4_hard_corner_shortcut startBoard Cell.white [(0, 0), (2, 3)]
    ⟨(0, 0), by decide, by decide⟩

/-! ## C9: the undo history is bounded -/

/-- C9: starting from the empty history of a fresh game, any sequence of
history-touching operations leaves at most 10 snapshots; `saveToHistory`
preserves the bound and discards the oldest entry exactly when the push
exceeds 10 entries. -/
theorem c9_history_bounded :
    (∀ ops : List HistOp, (ops.foldl histStep []).length ≤ 10) ∧
    (∀ (h : List Snapshot) (s : Snapshot), h.length ≤ 10 →
      (saveToHistory h s).length ≤ 10) ∧
    (∀ (h : List Snapshot) (s : Snapshot), 10 < (h ++ [s]).length →
      saveToHistory h s = (h ++ [s]).tail) := by
  have hsave : ∀ (h : List Snapshot) (s : Snapshot), h.length ≤ 10 →
      (saveToHistory h s).length ≤ 10 := by
    intro h s hle
    unfold saveToHistory
    by_cases hgt : (h ++ [s]).length > 10
    · rw [if_pos hgt]
      rw [List.length_tail, List.length_append]
      simp only [List.length_singleton]
      omega
    · rw [if_neg hgt]
      omega
  refine ⟨?_, hsave, ?_⟩
  · have hgen : ∀ (ops : List HistOp) (h : List Snapshot), h.length ≤ 10 →
        (ops.foldl histStep h).length ≤ 10 := by
      intro ops
      induction ops with
      | nil => intro h hle; simpa using hle
      | cons op ops ih =>
        intro h hle
        rw [List.foldl_cons]
        refine ih _ ?_
        cases op with
        | save s => exact hsave h s hle
        | undo =>
          simp only [histStep]
          by_cases h0 : h.length = 0
          · rw [if_pos h0]
            exact hle
          · rw [if_neg h0, List.length_dropLast]
            omega
        | reset => simp [histStep]
    intro ops
    exact hgen ops [] (by simp)
  · intro h s hgt
    unfold saveToHistory
    rw [if_pos hgt]

/-- A snapshot value for the C9 witness. -/
def blankSnapshot : Snapshot :=
  ⟨fun _ _ => Cell.empty, Cell.black, none, 0⟩

/-- Witness for C9: twelve saves in a row stay within the bound, and a save
onto a full history stays within the bound. -/
theorem c9_history_bounded_witness :
    ((List.replicate 12 (HistOp.save blankSnapshot)).foldl histStep []).length ≤ 10 ∧
    (saveToHistory (List.replicate 10 blankSnapshot) blankSnapshot).length ≤ 10 :=
  ⟨c9_history_bounded.1 _, c9_history_bounded.2.1 _ _ (by simp)⟩

/-! ## C10: strategy determinism -/

/-- C10: the medium and hard strategies consult no random source — their
selected move is identical across two runs with different random draws on the
same board and legal-move list; only the easy strategy consumes the draw, and
even it returns the unique candidate when exactly one legal move exists. -/
theorem c10_strategy_determinism :
    (∀ (r₁ r₂ : ℚ) (board : Board) (disc : Cell) (vm : List Pos),
      selectMove .medium r₁ board disc vm = selectMove .medium r₂ board disc vm ∧
      selectMove .hard r₁ board disc vm = selectMove .hard r₂ board disc vm) ∧
    (∀ (r : ℚ) (board : Board) (disc : Cell) (m : Pos),
      selectMove .easy r board disc [m] = m) := by
  refine ⟨fun r₁ r₂ board disc vm => ⟨rfl, rfl⟩, ?_⟩
  intro r board disc m
  simp [selectMove, makeEasyMove]

/-! ## C2: minimax with a stuck mover -/

/-- The disc count of one color, read off the `countDiscs` tally. -/
def discsOf (board : Board) (p : Cell) : Nat :=
  if p = Cell.black then (countDiscs board).1 else (countDiscs board).2

/-- C2: at positive depth, when the side to move has no legal moves: if the
opposite color is also stuck the game is scored as (discs of maxPlayer minus
discs of minPlayer) times 1000 — positive exactly when maxPlayer holds more
discs — and if only the mover is stuck, minimax recurses on the unchanged
board with the maximizing flag flipped and depth reduced by one, applying no
move. -/
theorem c2_minimax_stuck_mover (board : Board) (d : Nat) (alpha beta : JSNum)
    (isMax : Bool) (maxP minP : Cell) (ph : Phase)
    (hmaxmin : (maxP = Cell.black ∧ minP = Cell.white)
      ∨ (maxP = Cell.white ∧ minP = Cell.black))
    (hstuck : getValidMoves board (if isMax then maxP else minP) = []) :
    (getValidMoves board (oppositeOf (if isMax then maxP else minP)) = [] →
      minimax board (d + 1) alpha beta isMax maxP minP ph
          = JSNum.num ((((discsOf board maxP : Int) - (discsOf board minP : Int))
            * 1000 : Int) : ℚ) ∧
      (JSNum.ltb (JSNum.num 0)
          (minimax board (d + 1) alpha beta isMax maxP minP ph) = true ↔
        discsOf board minP < discsOf board maxP)) ∧
    (getValidMoves board (oppositeOf (if isMax then maxP else minP)) ≠ [] →
      minimax board (d + 1) alpha beta isMax maxP minP ph
        = minimax board d alpha beta (!isMax) maxP minP ph) := by
  have h0 : (getValidMoves board (if isMax then maxP else minP)).length = 0 := by
    rw [hstuck]
    rfl
  have hdiff : (if maxP = Cell.black
        then ((countDiscs board).1 : Int) - ((countDiscs board).2 : Int)
        else ((countDiscs board).2 : Int) - ((countDiscs board).1 : Int))
      = (discsOf board maxP : Int) - (discsOf board minP : Int) := by
    rcases hmaxmin with ⟨hM, hm⟩ | ⟨hM, hm⟩ <;> subst hM <;> subst hm <;>
      simp [discsOf]
  constructor
  · intro hopp
    have hopp0 : (getValidMoves board
        (oppositeOf (if isMax then maxP else minP))).length = 0 := by
      rw [hopp]
      rfl
    have hval : minimax board (d + 1) alpha beta isMax maxP minP ph
        = JSNum.num ((((discsOf board maxP : Int) - (discsOf board minP : Int))
          * 1000 : Int) : ℚ) := by
      simp only [minimax]
      rw [if_pos h0, if_pos hopp0, hdiff]
    refine ⟨hval, ?_⟩
    rw [hval]
    simp only [JSNum.ltb]
    rw [decide_eq_true_iff, Int.cast_pos]
    omega
  · intro hopp
    have hoppne : ¬((getValidMoves board
        (oppositeOf (if isMax then maxP else minP))).length = 0) := by
      intro hz
      exact hopp (List.length_eq_zero.mp hz)
    simp only [minimax]
    rw [if_pos h0, if_neg hoppne]

/-- The board of an already-finished game: no discs at all, both colors
stuck. -/
def emptyBoard : Board := fun _ _ => Cell.empty

/-- A board where Black (to move) is stuck but White still has a move:
White at (0,0), Black at (0,1). -/
def passBoard : Board := fun x y =>
  if x = 0 ∧ y = 0 then Cell.white
  else if x = 0 ∧ y = 1 then Cell.black
  else Cell.empty

/-- Witness for C2: the terminal case on the empty board and the pass case
on a board where only Black is stuck. -/
theorem c2_minimax_stuck_mover_witness :
    (minimax emptyBoard 1 JSNum.negInf JSNum.posInf true Cell.black Cell.white
        Phase.early
        = JSNum.num ((((discsOf emptyBoard Cell.black : Int)
          - (discsOf emptyBoard Cell.white : Int)) * 1000 : Int) : ℚ) ∧
      (JSNum.ltb (JSNum.num 0)
          (minimax emptyBoard 1 JSNum.negInf JSNum.posInf true Cell.black
            Cell.white Phase.early) = true ↔
        discsOf emptyBoard Cell.white < discsOf emptyBoard Cell.black)) ∧
    minimax passBoard 1 JSNum.negInf JSNum.posInf true Cell.black Cell.white
        Phase.early
      = minimax passBoard 0 JSNum.negInf JSNum.posInf false Cell.black
          Cell.white Phase.early :=
  ⟨(c2_minimax_stuck_mover emptyBoard 0 JSNum.negInf JSNum.posInf true
      Cell.black Cell.white Phase.early (Or.inl ⟨rfl, rfl⟩) (by decide)).1
      (by decide),
   (c2_minimax_stuck_mover passBoard 0 JSNum.negInf JSNum.posInf true
      Cell.black Cell.white Phase.early (Or.inl ⟨rfl, rfl⟩) (by decide)).2
      (by decide)⟩

/-! ## C7: the search recursion always bottoms out -/

/-- The move loop is a congruence in its child evaluator. -/
theorem abMaxLoop_congr (board : Board) (player : Cell) (beta : JSNum)
    {f g : Board → JSNum → JSNum} (hfg : ∀ bb a, f bb a = g bb a) :
    ∀ (l : List Pos) (maxEval alpha : JSNum),
      abMaxLoop board player beta f l maxEval alpha
        = abMaxLoop board player beta g l maxEval alpha := by
  intro l
  induction l with
  | nil => intro m a; rfl
  | cons q l ih =>
    intro m a
    simp only [abMaxLoop]
    rw [hfg (makeMove board q.1 q.2 player) a]
    by_cases hb : JSNum.leb beta
        (JSNum.maxJ a (g (makeMove board q.1 q.2 player) a)) = true
    · rw [if_pos hb, if_pos hb]
    · rw [if_neg hb, if_neg hb, ih]

/-- The minimizing move loop is a congruence in its child evaluator. -/
theorem abMinLoop_congr (board : Board) (player : Cell) (alpha : JSNum)
    {f g : Board → JSNum → JSNum} (hfg : ∀ bb bt, f bb bt = g bb bt) :
    ∀ (l : List Pos) (minEval beta : JSNum),
      abMinLoop board player alpha f l minEval beta
        = abMinLoop board player alpha g l minEval beta := by
  intro l
  induction l with
  | nil => intro m bt; rfl
  | cons q l ih =>
    intro m bt
    simp only [abMinLoop]
    rw [hfg (makeMove board q.1 q.2 player) bt]
    by_cases hb : JSNum.leb
        (JSNum.minJ bt (g (makeMove board q.1 q.2 player) bt)) alpha = true
    · rw [if_pos hb, if_pos hb]
    · rw [if_neg hb, if_neg hb, ih]

/-- C7: the recursion of `minimax` is bounded by `depth` — every recursive
call, the stuck-mover pass included, decreases `depth` — so running the same
recursion on any fuel budget exceeding `depth` already yields the final
value: the search always runs to completion. -/
theorem c7_minimax_terminates :
    ∀ (fuel : Nat) (board : Board) (depth : Nat) (alpha beta : JSNum)
      (isMax : Bool) (maxP minP : Cell) (ph : Phase), depth < fuel →
      minimaxFuel fuel board depth alpha beta isMax maxP minP ph
        = minimax board depth alpha beta isMax maxP minP ph := by
  intro fuel
  induction fuel with
  | zero =>
    intro _ depth _ _ _ _ _ _ h
    exact absurd h (Nat.not_lt_zero depth)
  | succ fuel ih =>
    intro board depth alpha beta isMax maxP minP ph hlt
    match depth with
    | 0 => simp [minimaxFuel, minimax]
    | dd + 1 =>
      have hdd : dd < fuel := by omega
      simp only [minimaxFuel]
      rw [if_neg (by omega : ¬(dd + 1 = 0))]
      cases isMax with
      | true =>
        simp only [minimax, Nat.add_sub_cancel, eq_self_iff_true, if_true,
          Bool.not_true]
        by_cases h0 : (getValidMoves board maxP).length = 0
        · rw [if_pos h0, if_pos h0]
          by_cases hop : (getValidMoves board (oppositeOf maxP)).length = 0
          · rw [if_pos hop, if_pos hop]
          · rw [if_neg hop, if_neg hop]
            exact ih board dd alpha beta false maxP minP ph hdd
        · rw [if_neg h0, if_neg h0]
          exact abMaxLoop_congr board maxP beta
            (fun bb a => ih bb dd a beta false maxP minP ph hdd) _ _ _
      | false =>
        simp only [minimax, Nat.add_sub_cancel, Bool.false_eq_true, if_false,
          Bool.not_false]
        by_cases h0 : (getValidMoves board minP).length = 0
        · rw [if_pos h0, if_pos h0]
          by_cases hop : (getValidMoves board (oppositeOf minP)).length = 0
          · rw [if_pos hop, if_pos hop]
          · rw [if_neg hop, if_neg hop]
            exact ih board dd alpha beta true maxP minP ph hdd
        · rw [if_neg h0, if_neg h0]
          exact abMinLoop_congr board minP alpha
            (fun bb bt => ih bb dd alpha bt true maxP minP ph hdd) _ _ _

/-- Witness for C7 at depth 1 with fuel 2 on the start board. -/
theorem c7_minimax_terminates_witness :
    minimaxFuel 2 startBoard 1 JSNum.negInf JSNum.posInf true Cell.black
        Cell.white Phase.early
      = minimax startBoard 1 JSNum.negInf JSNum.posInf true Cell.black
          Cell.white Phase.early :=
  c7_minimax_terminates 2 startBoard 1 JSNum.negInf JSNum.posInf true
    Cell.black Cell.white Phase.early (by decide)

end Reversi
